import Mathlib

/-!
Verification development for the dfmt dynamic value transformation engine.

The Go source operates over `interface{}` values produced by the format
decoders.  `GoVal` is a shallow embedding of that dynamic universe: the
scalar variants the engine dispatches on, plus the container variants,
keeping the distinction between a nil container reference (Go's nil
slice / nil map stored in a non-nil interface) and a present-but-empty
container, and keeping the concrete-typed `[]string` slices the
line-oriented text adapters produce (they are not `[]interface{}` and
the engine treats them differently).  Go maps are embedded as
association lists; a real Go map always has pairwise distinct keys, so
theorems about maps carry a no-duplicate-keys hypothesis where the
embedding would otherwise admit values no Go program can build.

IEEE-754 rounding is abstracted: a finite float carries the exact
rational value of its decimal source, and the special values carry
their own variants.  The engine itself never computes with floats, so
this abstraction only touches the number-parser boundary.
-/

namespace Dfmt

/-- Model of a Go `float64`: the finite values carry an exact rational
(IEEE rounding abstracted), and the infinities and NaN are explicit, as
`math.IsInf` / `math.IsNaN` distinguish them. -/
inductive GoFloat where
  | finite (q : ℚ)
  | inf (neg : Bool)
  | nan
deriving DecidableEq, Repr

/-- Model of Go's `math.IsInf(f, 0)`. -/
def GoFloat.isInf : GoFloat → Bool
  | .inf _ => true
  | _ => false

/-- Model of Go's `math.IsNaN(f)`. -/
def GoFloat.isNaN : GoFloat → Bool
  | .nan => true
  | _ => false

/-- The dynamic value universe the transformation engine walks.
`nilv` is the nil `interface{}`; `nilSlice`, `nilStrSlice` and `nilMap`
are interfaces holding a typed nil container reference; `slice` and
`gomap` are present (possibly empty) containers.  `strSlice` is a
concrete-typed `[]string` value as produced by `TextFormat.Unmarshal`
when no field delimiter is configured; it is distinct from
`slice (xs.map strv)` because Go's `data.([]interface{})` type
assertion fails on it. -/
inductive GoVal where
  | nilv
  | boolv (b : Bool)
  | intv (i : Int)
  | floatv (f : GoFloat)
  | complexv (re im : GoFloat)
  | strv (s : String)
  | slice (xs : List GoVal)
  | nilSlice
  | strSlice (xs : List String)
  | nilStrSlice
  | gomap (entries : List (GoVal × GoVal))
  | nilMap
deriving Repr

/-- Model of `isNil` (utilities file): the nil interface is nil, an
interface holding a nil slice/map reference is nil, everything else --
including a present-but-empty slice or map and every scalar -- is not.
The pointer/chan/func kinds of the Go original are outside this value
universe (decoders never produce them). -/
def isNil : GoVal → Bool
  | .nilv => true
  | .nilSlice => true
  | .nilStrSlice => true
  | .nilMap => true
  | _ => false

/-! Structural equality on dynamic values, modelling Go's `==` on
`interface{}` values (the comparison Go maps use for their keys).  Go
`==` panics on values holding slices or maps; real decoders never
produce container-typed map keys, so the total structural comparison
below agrees with Go wherever a Go program can actually compare. -/

mutual
def gvBEq : GoVal → GoVal → Bool
  | .nilv, .nilv => true
  | .boolv a, .boolv b => a == b
  | .intv a, .intv b => a == b
  | .floatv a, .floatv b => a == b
  | .complexv a b, .complexv c d => a == c && b == d
  | .strv a, .strv b => a == b
  | .slice xs, .slice ys => glBEq xs ys
  | .nilSlice, .nilSlice => true
  | .strSlice xs, .strSlice ys => xs == ys
  | .nilStrSlice, .nilStrSlice => true
  | .gomap m, .gomap n => gmBEq m n
  | .nilMap, .nilMap => true
  | _, _ => false

def glBEq : List GoVal → List GoVal → Bool
  | [], [] => true
  | x :: xs, y :: ys => gvBEq x y && glBEq xs ys
  | _, _ => false

def gmBEq : List (GoVal × GoVal) → List (GoVal × GoVal) → Bool
  | [], [] => true
  | (k, v) :: m, (k2, v2) :: n => gvBEq k k2 && gvBEq v v2 && gmBEq m n
  | _, _ => false
end

theorem glBEq_iff (xs : List GoVal)
    (h : ∀ x ∈ xs, ∀ b, gvBEq x b = true ↔ x = b) :
    ∀ ys, glBEq xs ys = true ↔ xs = ys := by
  induction xs with
  | nil => intro ys; cases ys <;> simp [glBEq]
  | cons x xs ih =>
    intro ys
    cases ys with
    | nil => simp [glBEq]
    | cons y ys =>
      have hx := h x (by simp)
      have hrest := ih (fun z hz b => h z (by simp [hz]) b) ys
      simp [glBEq, hx, hrest]

theorem gmBEq_iff (m : List (GoVal × GoVal))
    (h : ∀ p ∈ m, (∀ b, gvBEq p.1 b = true ↔ p.1 = b) ∧
                  (∀ b, gvBEq p.2 b = true ↔ p.2 = b)) :
    ∀ n, gmBEq m n = true ↔ m = n := by
  induction m with
  | nil => intro n; cases n <;> simp [gmBEq]
  | cons p m ih =>
    intro n
    obtain ⟨k, v⟩ := p
    cases n with
    | nil => simp [gmBEq]
    | cons q n =>
      obtain ⟨k2, v2⟩ := q
      have hk := (h (k, v) (by simp)).1
      have hv := (h (k, v) (by simp)).2
      have hrest := ih (fun z hz => h z (by simp [hz])) n
      simp [gmBEq, hk k2, hv v2, hrest, and_assoc]

theorem gvBEq_iff_bounded :
    ∀ (n : Nat) (a : GoVal), sizeOf a ≤ n → ∀ b, gvBEq a b = true ↔ a = b := by
  intro n
  induction n with
  | zero =>
    intro a ha
    exfalso
    cases a <;> simp_all
  | succ n ih =>
    intro a ha b
    cases a <;> cases b <;> try simp [gvBEq]
    case slice.slice xs ys =>
      exact glBEq_iff xs
        (fun x hx b => ih x (by
          have h1 := List.sizeOf_lt_of_mem hx
          have h2 : sizeOf (GoVal.slice xs) = 1 + sizeOf xs := by simp
          omega) b) ys
    case gomap.gomap m m2 =>
      refine gmBEq_iff m (fun p hp => ?_) m2
      obtain ⟨k, v⟩ := p
      have h1 := List.sizeOf_lt_of_mem hp
      have h2 : sizeOf (GoVal.gomap m) = 1 + sizeOf m := by simp
      have h3 : sizeOf (k, v) = 1 + sizeOf k + sizeOf v := by simp
      constructor
      · exact fun b => ih k (by omega) b
      · exact fun b => ih v (by omega) b

theorem gvBEq_iff (a b : GoVal) : gvBEq a b = true ↔ a = b :=
  gvBEq_iff_bounded (sizeOf a) a le_rfl b

instance : DecidableEq GoVal := fun a b => decidable_of_iff _ (gvBEq_iff a b)

theorem gvBEq_refl (a : GoVal) : gvBEq a a = true := (gvBEq_iff a a).mpr rfl

/-! ## Number string parser -/

/-- Value of a decimal digit run. -/
def ofDecDigits (cs : List Char) : Nat :=
  cs.foldl (fun acc c => acc * 10 + (c.toNat - 48)) 0

def allDigits (cs : List Char) : Bool := cs.all Char.isDigit

/-- Optional leading sign: (negative, remainder). -/
def stripSign (cs : List Char) : Bool × List Char :=
  match cs with
  | [] => (false, [])
  | c :: r =>
    if c = '+' then (false, r)
    else if c = '-' then (true, r)
    else (false, c :: r)

/-- Model of the external strconv.ParseInt(s, 10, bits): an optional
sign followed by one or more decimal digits, with the value inside the
bits-bit signed range.  `none` stands for any non-nil error (syntax or
range); the caller only branches on err == nil.  The explicit base 10
rejects digit-separating underscores, so they are not modelled. -/
def parseGoInt (s : String) (bits : Nat) : Option Int :=
  match s.data with
  | [] => none
  | c :: rest =>
    let p := stripSign (c :: rest)
    if p.2 ≠ [] ∧ allDigits p.2 then
      let v : Int := if p.1 then -(ofDecDigits p.2 : Int) else (ofDecDigits p.2 : Int)
      if -(2 ^ (bits - 1) : Int) ≤ v ∧ v ≤ 2 ^ (bits - 1) - 1 then some v else none
    else none

/-- Special values of the external strconv.ParseFloat: an optionally
signed infinity spelled "inf" or "infinity", and an unsigned "nan",
all case-insensitive. -/
def parseFloatSpecial (cs : List Char) : Option GoFloat :=
  let p := stripSign cs
  let low := p.2.map Char.toLower
  if low = "inf".data ∨ low = "infinity".data then some (.inf p.1)
  else if cs.map Char.toLower = "nan".data then some .nan
  else none

/-- Exponent tail of a decimal float: nothing, or e/E with an optional
sign and at least one digit; anything else makes the whole parse fail. -/
def parseExpTail (cs : List Char) : Option Int :=
  match cs with
  | [] => some 0
  | c :: r =>
    if c = 'e' ∨ c = 'E' then
      let p := stripSign r
      if p.2 ≠ [] ∧ allDigits p.2 then
        some (if p.1 then -(ofDecDigits p.2 : Int) else (ofDecDigits p.2 : Int))
      else none
    else none

/-- Decimal mantissa-and-exponent form accepted by the external
strconv.ParseFloat.  At least one digit must appear in the integer or
the fraction part.  The result is (negative, mantissa digits as a
number, number of fraction digits, exponent); `decValue` turns it into
the exact rational the text denotes.  The hexadecimal-float and
digit-underscore forms of the stdlib grammar are not modelled; nothing
in the repository uses them. -/
def parseFloatDec (cs : List Char) : Option (Bool × Nat × Nat × Int) :=
  let p := stripSign cs
  let ip := p.2.takeWhile Char.isDigit
  let r1 := p.2.dropWhile Char.isDigit
  let fr :=
    match r1 with
    | c :: r2 =>
      if c = '.' then (r2.takeWhile Char.isDigit, r2.dropWhile Char.isDigit)
      else (([] : List Char), r1)
    | [] => (([] : List Char), r1)
  if ip = [] ∧ fr.1 = [] then none
  else
    match parseExpTail fr.2 with
    | none => none
    | some e => some (p.1, ofDecDigits (ip ++ fr.1), fr.1.length, e)

/-- Exact rational value of a parsed decimal: mantissa scaled down by
the fraction digits, scaled by the exponent, negated by the sign. -/
def decValue (m : Bool × Nat × Nat × Int) : ℚ :=
  let v : ℚ := (m.2.1 : ℚ) / (10 : ℚ) ^ m.2.2.1 * (10 : ℚ) ^ m.2.2.2
  if m.1 then -v else v

/-- Largest finite float64, exactly. -/
def maxFloat64Q : ℚ := (2 ^ 53 - 1) * 2 ^ 971

/-- Model of the external strconv.ParseFloat(s, 64).  A decimal whose
exact value overflows the finite range or underflows to zero makes Go
return the value with an ErrRange error; the one caller treats any
error as a failed parse, so the model folds both into `none`.
Rounding at the exact overflow/underflow boundaries is abstracted with
the rest of IEEE rounding. -/
def parseGoFloat (s : String) : Option GoFloat :=
  match parseFloatSpecial s.data with
  | some f => some f
  | none =>
    match parseFloatDec s.data with
    | none => none
    | some m =>
      let q := decValue m
      if maxFloat64Q < abs q then none
      else if q ≠ 0 ∧ abs q < 1 / 2 ^ 1075 then none
      else some (.finite q)

/-- Model of CustomStringNumberParser: an empty string passes through
without any parse attempt; then a base-10 signed integer parse is
tried, then a float parse; finite-only mode turns an infinite or NaN
float parse result back into the original string.  Total by
construction, like the Go function, which never returns an error.
The float bit size only affects IEEE rounding, which is abstracted,
so `floatbits` is carried but unused. -/
def CustomStringNumberParser (s : String) (intbits floatbits : Nat)
    (finiteOnly : Bool) : GoVal :=
  if s = "" then .strv s
  else
    match parseGoInt s intbits with
    | some i => .intv i
    | none =>
      match parseGoFloat s with
      | none => .strv s
      | some f =>
        if !finiteOnly then .floatv f
        else if !(f.isInf || f.isNaN) then .floatv f
        else .strv s

/-- Model of StringToFiniteNumberParser. -/
def StringToFiniteNumberParser (s : String) : GoVal :=
  CustomStringNumberParser s 64 64 true

/-! ## The transformation engine -/

/-- Result of a Transform call: Go's (interface value, error) pair,
with a separate case for a runtime panic, which aborts the program
instead of returning. -/
inductive TRes where
  | ok (v : GoVal)
  | fail (v : GoVal) (e : String)
  | panicked (e : String)
deriving Repr, DecidableEq

/-- Result of the slice conversion loop. -/
inductive LRes where
  | ok (xs : List GoVal)
  | fail (xs : List GoVal) (e : String)
  | panicked (e : String)
deriving Repr, DecidableEq

/-- Result of the map conversion loop. -/
inductive MRes where
  | ok (m : List (GoVal × GoVal))
  | fail (m : List (GoVal × GoVal)) (e : String)
  | panicked (e : String)
deriving Repr, DecidableEq

/-- The five function slots of the internal callingTransformer, after
NewConfigurableTransformer has filled every omitted slot with its
identity / keep-all default. -/
structure CTrans where
  stringTransformer : String → GoVal
  float64Transformer : GoFloat → GoVal
  complex128Transformer : GoFloat → GoFloat → GoVal
  sliceSelector : GoVal → Bool
  kvSelector : GoVal → GoVal → Bool

/-- Message of the Go runtime panic raised when the type assertion to
a generic interface slice fails on a concrete-typed value. -/
def interfaceConversionMsg : String :=
  "interface conversion: interface is []string, not []interface"

/-- Message of the Go runtime panic raised by calling Interface on
reflect's zero Value (a MapIndex miss). -/
def zeroValueMsg : String :=
  "reflect: call of reflect.Value.Interface on zero Value"

/-- One removal step of the slice-compaction loop: the source drops
element n by reslicing off the head, truncating the tail, or appending
the two halves around n; as list values the three branches agree. -/
def goRemoveStep (data : List GoVal) (n : Nat) : List GoVal :=
  if n = 0 then data.drop 1
  else if n = data.length - 1 then data.take n
  else data.take n ++ data.drop (n + 1)

theorem goRemoveStep_eq (data : List GoVal) (n : Nat) (h : n < data.length) :
    goRemoveStep data n = data.take n ++ data.drop (n + 1) := by
  unfold goRemoveStep
  split
  · subst n; simp
  · split
    · rename_i h0 h1
      have : data.drop (n + 1) = [] := by
        apply List.drop_eq_nil_of_le; omega
      simp [this]
    · rfl

theorem goRemoveStep_length (data : List GoVal) (n : Nat) (h : n < data.length) :
    (goRemoveStep data n).length = data.length - 1 := by
  rw [goRemoveStep_eq data n h]
  simp
  omega

/-- The second pass of transformSlice: scan with index n; a kept
element advances n, a dropped element removes position n and rescans
the same index (the loop's n-- before the loop's n++). -/
def removeFailing (sel : GoVal → Bool) (data : List GoVal) (n : Nat) : List GoVal :=
  if h : n < data.length then
    if sel (data.get ⟨n, h⟩) then removeFailing sel data (n + 1)
    else removeFailing sel (goRemoveStep data n) n
  else data
termination_by data.length - n
decreasing_by
  · omega
  · have := goRemoveStep_length data n h
    omega

mutual
/-- Model of callingTransformer.transformInterface: dynamic dispatch
on the value's type.  Strings, floats and complex numbers go to their
converters (a float32 or complex64 is promoted to the 64-bit variant
before the call, so the promotion is invisible here); the default
branch collapses every nil-like value to the nil interface; maps and
generic interface slices recurse (the bodies of the source's
transformMap and transformSlice are spelled inline here and restated
as the standalone `transformMapEntries` and `transformSlice` below,
definitionally equal branches); a concrete-typed string slice reaches
the type assertion to a generic interface slice, which panics; every
other value passes through unchanged. -/
def transformInterface (t : CTrans) : GoVal → TRes
  | .strv s => .ok (t.stringTransformer s)
  | .floatv f => .ok (t.float64Transformer f)
  | .complexv re im => .ok (t.complex128Transformer re im)
  | .nilv => .ok .nilv
  | .nilSlice => .ok .nilv
  | .nilStrSlice => .ok .nilv
  | .nilMap => .ok .nilv
  | .gomap m =>
    match mapPass1 t m with
    | .ok m1 => .ok (.gomap (m1.filter fun kv => t.kvSelector kv.1 kv.2))
    | .fail m1 e => .fail (.gomap m1) e
    | .panicked e => .panicked e
  | .slice xs =>
    match slicePass1 t xs with
    | .ok ys => .ok (.slice (removeFailing t.sliceSelector ys 0))
    | .fail ys e => .fail (.slice ys) e
    | .panicked e => .panicked e
  | .strSlice _ => .panicked interfaceConversionMsg
  | v => .ok v

/-- First loop of transformSlice: data[n] = transformInterface(data[n])
element by element; on error the loop stops with the current element
not yet overwritten. -/
def slicePass1 (t : CTrans) : List GoVal → LRes
  | [] => .ok []
  | x :: xs =>
    match transformInterface t x with
    | .ok d =>
      match slicePass1 t xs with
      | .ok ys => .ok (d :: ys)
      | .fail ys e => .fail (d :: ys) e
      | .panicked e => .panicked e
    | .fail _ e => .fail (x :: xs) e
    | .panicked e => .panicked e

/-- Entrywise first pass over a map: skip entries whose current value
is nil, convert the rest, delete an entry whose conversion result is
the untyped nil (see transformMapEntries); an error stops the pass
with the entries so far. -/
def mapPass1 (t : CTrans) : List (GoVal × GoVal) → MRes
  | [] => .ok []
  | (k, v) :: rest =>
    if isNil v then
      match mapPass1 t rest with
      | .ok m => .ok ((k, v) :: m)
      | .fail m e => .fail ((k, v) :: m) e
      | .panicked e => .panicked e
    else
      match transformInterface t v with
      | .ok d =>
        if d = .nilv then mapPass1 t rest
        else
          match mapPass1 t rest with
          | .ok m => .ok ((k, d) :: m)
          | .fail m e => .fail ((k, d) :: m) e
          | .panicked e => .panicked e
      | .fail _ e => .fail ((k, v) :: rest) e
      | .panicked e => .panicked e
end

/-- Model of callingTransformer.transformSlice: first convert every
element in place (an error hands back the slice as mutated so far);
then run the removal loop over the converted sequence.  The function
is only reached for present slices, so the defensive isNil test at its
top, false there, needs no case. -/
def transformSlice (t : CTrans) (data : List GoVal) : TRes :=
  match slicePass1 t data with
  | .ok ys => .ok (.slice (removeFailing t.sliceSelector ys 0))
  | .fail ys e => .fail (.slice ys) e
  | .panicked e => .panicked e

/-- Model of callingTransformer.transformMap as an entrywise pass.
The source iterates a snapshot of MapKeys and mutates the map through
SetMapIndex; with the pairwise-distinct keys every real Go map has,
that iteration touches each entry exactly once and entries do not
interfere, so it equals this entrywise rendering — proved against the
literal loop rendering in `transformMap_loops_agree`.  Storing a
conversion result of untyped nil is a SetMapIndex on reflect's zero
Value, which deletes the entry rather than keeping it with a nil
value. -/
def transformMapEntries (t : CTrans) (m : List (GoVal × GoVal)) : TRes :=
  match mapPass1 t m with
  | .ok m1 => .ok (.gomap (m1.filter fun kv => t.kvSelector kv.1 kv.2))
  | .fail m1 e => .fail (.gomap m1) e
  | .panicked e => .panicked e

theorem transformInterface_slice (t : CTrans) (xs : List GoVal) :
    transformInterface t (.slice xs) = transformSlice t xs := rfl

theorem transformInterface_gomap (t : CTrans) (m : List (GoVal × GoVal)) :
    transformInterface t (.gomap m) = transformMapEntries t m := rfl

/-- Model of callingTransformer.Transform: the nil interface
short-circuits before any dispatch. -/
def callingTransform (t : CTrans) (data : GoVal) : TRes :=
  if data = .nilv then .ok data else transformInterface t data

/-- A transformer as the pipeline sees one. -/
def Transformer := GoVal → TRes

/-- Model of NonNilElementSelector. -/
def NonNilElementSelector (element : GoVal) : Bool := !isNil element

/-- Model of NonEmptySliceOrArrayAsElementSelector: container-typed
values are kept when non-empty (a nil container has length 0);
everything else, the untyped nil included (reflect kind Invalid, the
default branch), is kept. -/
def NonEmptySliceOrArrayAsElementSelector (element : GoVal) : Bool :=
  match element with
  | .slice xs => xs.length > 0
  | .strSlice xs => xs.length > 0
  | .nilSlice => false
  | .nilStrSlice => false
  | _ => true

/-- Model of NonNilKeySelector. -/
def NonNilKeySelector (key value : GoVal) : Bool := !isNil key

/-- Model of NonNilValueSelector. -/
def NonNilValueSelector (key value : GoVal) : Bool := !isNil value

/-- Model of NonNilKeyValueSelector. -/
def NonNilKeyValueSelector (key value : GoVal) : Bool :=
  !isNil key && !isNil value

/-- Model of NewConfigurableTransformer: with every slot omitted the
transformer degenerates to the no-op transformer; otherwise each
omitted slot gets its identity / keep-all default. -/
def NewConfigurableTransformer (s : Option (String → GoVal))
    (f : Option (GoFloat → GoVal)) (c : Option (GoFloat → GoFloat → GoVal))
    (es : Option (GoVal → Bool)) (kv : Option (GoVal → GoVal → Bool)) :
    Transformer :=
  if s.isNone && f.isNone && c.isNone && es.isNone && kv.isNone then
    fun data => .ok data
  else
    callingTransform
      { stringTransformer := s.getD (fun s2 => .strv s2)
        float64Transformer := f.getD (fun f2 => .floatv f2)
        complex128Transformer := c.getD (fun re im => .complexv re im)
        sliceSelector := es.getD (fun _ => true)
        kvSelector := kv.getD (fun _ _ => true) }

/-- Model of NilRemovalTransformer.Transform: a nil input passes
through; otherwise the stock selectors chosen by the three toggles are
handed to the configurable engine (a toggle combination selecting
nothing degenerates to the no-op transformer). -/
def nilRemovalTransform (removeNilKeys removeNilValues removeNilElements : Bool)
    (data : GoVal) : TRes :=
  if data = .nilv then .ok data
  else
    let es : Option (GoVal → Bool) :=
      if removeNilElements then some NonNilElementSelector else none
    let kv : Option (GoVal → GoVal → Bool) :=
      if removeNilKeys && removeNilValues then some NonNilKeyValueSelector
      else if removeNilKeys then some NonNilKeySelector
      else if removeNilValues then some NonNilValueSelector
      else none
    NewConfigurableTransformer none none none es kv data

/-- Model of TransformerPipeline.Transform: stages run left to right,
a nil slot is skipped silently, and the first stage error is returned
together with that stage's value, the later stages never running; a
panic in a stage propagates. -/
def pipelineTransform : List (Option Transformer) → GoVal → TRes
  | [], value => .ok value
  | none :: ts, value => pipelineTransform ts value
  | some t :: ts, value =>
    match t value with
    | .ok v2 => pipelineTransform ts v2
    | .fail v2 e => .fail v2 e
    | .panicked e => .panicked e

/-! ## The literal map loops -/

/-- The key snapshot reflect's MapKeys takes. -/
def goMapKeys (m : List (GoVal × GoVal)) : List GoVal := m.map Prod.fst

/-- Model of MapIndex: the entry whose key compares == to k. -/
def mapIndex (m : List (GoVal × GoVal)) (k : GoVal) : Option GoVal :=
  match m with
  | [] => none
  | (k2, v) :: rest => if gvBEq k2 k then some v else mapIndex rest k

/-- Model of reflect's SetMapIndex: storing the zero Value (an untyped
nil after reflect.ValueOf) deletes the key, anything else replaces the
stored value in place. -/
def setMapIndex (m : List (GoVal × GoVal)) (k : GoVal) (d : GoVal) :
    List (GoVal × GoVal) :=
  if d = .nilv then m.filter fun kv => !gvBEq kv.1 k
  else m.map fun kv => if gvBEq kv.1 k then (kv.1, d) else kv

/-- First loop of the source transformMap, literally: iterate the key
snapshot, skip keys whose current value is nil, convert the rest and
store each result with SetMapIndex; an error stops the loop returning
the map as mutated so far.  A key missing from the map would make
MapIndex return the zero Value and the Interface call on it panic;
`transformMap_loops_agree` shows the case unreachable when keys are
pairwise distinct. -/
def mapPass1Loop (t : CTrans) : List GoVal → List (GoVal × GoVal) → MRes
  | [], m => .ok m
  | k :: ks, m =>
    match mapIndex m k with
    | none => .panicked zeroValueMsg
    | some v =>
      if isNil v then mapPass1Loop t ks m
      else
        match transformInterface t v with
        | .ok d => mapPass1Loop t ks (setMapIndex m k d)
        | .fail _ e => .fail m e
        | .panicked e => .panicked e

/-- Second loop of the source transformMap: a fresh key snapshot,
deleting every pair the selector rejects (SetMapIndex with the zero
Value).  A MapIndex miss, impossible for distinct keys since only the
current key is ever deleted, is skipped where Go's Interface call
would panic. -/
def mapPass2Loop (sel : GoVal → GoVal → Bool) :
    List GoVal → List (GoVal × GoVal) → List (GoVal × GoVal)
  | [], m => m
  | k :: ks, m =>
    match mapIndex m k with
    | none => mapPass2Loop sel ks m
    | some v =>
      if sel k v then mapPass2Loop sel ks m
      else mapPass2Loop sel ks (m.filter fun kv => !gvBEq kv.1 k)

/-- Model of callingTransformer.transformMap with both loops rendered
literally.  The defensive kind test at the top of the Go function (an
error when invoked on a non-map) is statically satisfied here, the
argument being a map by type. -/
def transformMap (t : CTrans) (m : List (GoVal × GoVal)) : TRes :=
  match mapPass1Loop t (goMapKeys m) m with
  | .ok m1 => .ok (.gomap (mapPass2Loop t.kvSelector (goMapKeys m1) m1))
  | .fail m1 e => .fail (.gomap m1) e
  | .panicked e => .panicked e

/-! ## The removal loop is a stable filter -/

theorem removeFailing_eq_take_filter_drop (sel : GoVal → Bool) :
    ∀ (fuel : Nat) (data : List GoVal) (n : Nat), data.length - n ≤ fuel →
      removeFailing sel data n = data.take n ++ (data.drop n).filter sel := by
  intro fuel
  induction fuel with
  | zero =>
    intro data n h
    have hn : data.length ≤ n := by omega
    unfold removeFailing
    rw [dif_neg (by omega)]
    rw [List.take_all_of_le hn, List.drop_eq_nil_of_le hn]
    simp
  | succ fuel ih =>
    intro data n h
    unfold removeFailing
    by_cases hlt : n < data.length
    · rw [dif_pos hlt]
      have hdrop : data.drop n = data.get ⟨n, hlt⟩ :: data.drop (n + 1) := by
        simp [List.get_eq_getElem, List.getElem_cons_drop]
      by_cases hsel : sel (data.get ⟨n, hlt⟩)
      · rw [if_pos hsel, ih data (n + 1) (by omega)]
        have htake : data.take (n + 1) = data.take n ++ [data.get ⟨n, hlt⟩] := by
          rw [← List.take_concat_get data n hlt]
          simp [List.get_eq_getElem]
        rw [htake, hdrop, List.filter_cons, if_pos hsel, List.append_assoc]
        rfl
      · rw [if_neg hsel, goRemoveStep_eq data n hlt]
        have hlen : (data.take n).length = n := by
          rw [List.length_take]; omega
        have harg : ((data.take n ++ data.drop (n + 1)).length - n) ≤ fuel := by
          rw [List.length_append, hlen, List.length_drop]; omega
        rw [ih _ n harg, List.take_left' hlen, List.drop_left' hlen,
          hdrop, List.filter_cons, if_neg (by simpa using hsel)]
    · rw [dif_neg hlt]
      have hn : data.length ≤ n := by omega
      rw [List.take_all_of_le hn, List.drop_eq_nil_of_le hn]
      simp

/-- The whole removal pass, started at index 0 as transformSlice does,
keeps exactly the selector-passing elements in their original order. -/
theorem removeFailing_zero (sel : GoVal → Bool) (data : List GoVal) :
    removeFailing sel data 0 = data.filter sel := by
  have := removeFailing_eq_take_filter_drop sel data.length data 0 (by omega)
  simpa using this

/-- C1: a list value is transformed in two passes: the first pass
replaces every element by its recursively transformed result, and only
then a second pass over the converted sequence removes exactly the
elements the element selector rejects, a stable compaction keeping the
surviving elements in their original relative order and skipping no
element whether the drops are leading, trailing or consecutive (the
pass equals a filter of the converted sequence); in particular
nil-element removal turns the list of nil, 1, "s", nil into the list
of 1, "s". -/
theorem c1_list_transform_two_pass :
    (∀ (t : CTrans) (xs ys : List GoVal), slicePass1 t xs = .ok ys →
        transformInterface t (.slice xs) = .ok (.slice (ys.filter t.sliceSelector)))
  ∧ nilRemovalTransform false false true
      (.slice [.nilv, .intv 1, .strv "s", .nilv]) = .ok (.slice [.intv 1, .strv "s"]) := by
  constructor
  · intro t xs ys h
    rw [transformInterface_slice]
    unfold transformSlice
    rw [h]
    simp [removeFailing_zero]
  · have h1 : nilRemovalTransform false false true
        (.slice [.nilv, .intv 1, .strv "s", .nilv])
        = .ok (.slice (removeFailing NonNilElementSelector
            [.nilv, .intv 1, .strv "s", .nilv] 0)) := rfl
    rw [h1, removeFailing_zero]
    rfl

/-! ## The literal map loops equal the entrywise passes -/

theorem gvBEq_eq_false_iff (a b : GoVal) : gvBEq a b = false ↔ a ≠ b := by
  have h := gvBEq_iff a b
  cases hg : gvBEq a b
  · rw [hg] at h
    simp only [Bool.false_eq_true, false_iff] at h
    simp [h]
  · rw [hg] at h
    simp only [true_iff] at h
    simp [h]

theorem mapIndex_append_right (pre m : List (GoVal × GoVal)) (k : GoVal)
    (h : ∀ p ∈ pre, gvBEq p.1 k = false) :
    mapIndex (pre ++ m) k = mapIndex m k := by
  induction pre with
  | nil => rfl
  | cons p pre ih =>
    obtain ⟨k2, v⟩ := p
    have hk := h (k2, v) (by simp)
    rw [List.cons_append, mapIndex, hk]
    simp only [Bool.false_eq_true, if_false]
    exact ih (fun q hq => h q (by simp [hq]))

theorem mapIndex_cons_self (m : List (GoVal × GoVal)) (k : GoVal) (v : GoVal) :
    mapIndex ((k, v) :: m) k = some v := by
  rw [mapIndex, gvBEq_refl]
  simp

theorem filter_out_key (pre rest : List (GoVal × GoVal)) (k v : GoVal)
    (hpre : ∀ p ∈ pre, gvBEq p.1 k = false)
    (hrest : ∀ p ∈ rest, gvBEq p.1 k = false) :
    (pre ++ (k, v) :: rest).filter (fun kv => !gvBEq kv.1 k) = pre ++ rest := by
  rw [List.filter_append, List.filter_cons]
  rw [if_neg (by simp [gvBEq_refl])]
  congr 1
  · exact List.filter_eq_self.mpr (fun p hp => by simp [hpre p hp])
  · exact List.filter_eq_self.mpr (fun p hp => by simp [hrest p hp])

theorem setMapIndex_middle_del (pre rest : List (GoVal × GoVal)) (k v : GoVal)
    (hpre : ∀ p ∈ pre, gvBEq p.1 k = false)
    (hrest : ∀ p ∈ rest, gvBEq p.1 k = false) :
    setMapIndex (pre ++ (k, v) :: rest) k .nilv = pre ++ rest := by
  unfold setMapIndex
  rw [if_pos rfl]
  exact filter_out_key pre rest k v hpre hrest

theorem setMapIndex_middle_set (pre rest : List (GoVal × GoVal)) (k v d : GoVal)
    (hd : d ≠ .nilv)
    (hpre : ∀ p ∈ pre, gvBEq p.1 k = false)
    (hrest : ∀ p ∈ rest, gvBEq p.1 k = false) :
    setMapIndex (pre ++ (k, v) :: rest) k d = pre ++ (k, d) :: rest := by
  unfold setMapIndex
  rw [if_neg hd, List.map_append, List.map_cons]
  have h1 : pre.map (fun kv => if gvBEq kv.1 k = true then (kv.1, d) else kv) = pre := by
    conv_rhs => rw [← List.map_id pre]
    exact List.map_congr_left (fun p hp => by
      rw [hpre p hp]
      simp)
  have h2 : rest.map (fun kv => if gvBEq kv.1 k = true then (kv.1, d) else kv) = rest := by
    conv_rhs => rw [← List.map_id rest]
    exact List.map_congr_left (fun p hp => by
      rw [hrest p hp]
      simp)
  rw [h1, h2]
  simp [gvBEq_refl]

/-- Key facts extracted from a distinct-keys hypothesis over the map
split pre ++ (k, v) :: rest. -/
theorem nodup_split_facts (pre rest : List (GoVal × GoVal)) (k : GoVal) (v : GoVal)
    (h : (goMapKeys (pre ++ (k, v) :: rest)).Nodup) :
    (∀ p ∈ pre, gvBEq p.1 k = false) ∧ (∀ p ∈ rest, gvBEq p.1 k = false) := by
  rw [goMapKeys, List.map_append, List.map_cons, List.nodup_append] at h
  obtain ⟨h1, h2, h3⟩ := h
  constructor
  · intro p hp
    rw [gvBEq_eq_false_iff]
    intro hk
    have hm1 : p.1 ∈ pre.map Prod.fst := List.mem_map_of_mem Prod.fst hp
    exact h3 hm1 (by simp [hk])
  · intro p hp
    rw [gvBEq_eq_false_iff]
    intro hk
    rw [List.nodup_cons] at h2
    have hm1 : p.1 ∈ rest.map Prod.fst := List.mem_map_of_mem Prod.fst hp
    rw [hk] at hm1
    exact h2.1 hm1

theorem mapPass1Loop_eq (t : CTrans) :
    ∀ (m pre : List (GoVal × GoVal)),
      (goMapKeys (pre ++ m)).Nodup →
      mapPass1Loop t (goMapKeys m) (pre ++ m) =
        match mapPass1 t m with
        | .ok m1 => .ok (pre ++ m1)
        | .fail m1 e => .fail (pre ++ m1) e
        | .panicked e => .panicked e := by
  intro m
  induction m with
  | nil =>
    intro pre _
    simp [mapPass1Loop, mapPass1, goMapKeys]
  | cons p m ih =>
    obtain ⟨k, v⟩ := p
    intro pre h
    obtain ⟨hpre, hrest⟩ := nodup_split_facts pre m k v h
    have hidx : mapIndex (pre ++ (k, v) :: m) k = some v := by
      rw [mapIndex_append_right pre _ k hpre, mapIndex_cons_self]
    show mapPass1Loop t (k :: goMapKeys m) (pre ++ (k, v) :: m) = _
    simp only [mapPass1Loop, hidx]
    by_cases hnil : isNil v
    · rw [if_pos hnil]
      have hregroup : pre ++ (k, v) :: m = (pre ++ [(k, v)]) ++ m := by simp
      have hn : (goMapKeys ((pre ++ [(k, v)]) ++ m)).Nodup := by
        rw [← hregroup]; exact h
      rw [hregroup, ih (pre ++ [(k, v)]) hn]
      cases hm : mapPass1 t m <;> simp [mapPass1, hnil, hm]
    · rw [if_neg hnil]
      cases hti : transformInterface t v with
      | ok d =>
        simp only []
        by_cases hd : d = GoVal.nilv
        · subst hd
          rw [setMapIndex_middle_del pre m k v hpre hrest]
          have hn : (goMapKeys (pre ++ m)).Nodup := by
            have hsub : List.Sublist ((pre.map Prod.fst) ++ (m.map Prod.fst))
                ((pre.map Prod.fst) ++ (k :: m.map Prod.fst)) :=
              List.Sublist.append_left (List.sublist_cons_self k (m.map Prod.fst)) _
            rw [goMapKeys, List.map_append]
            rw [goMapKeys, List.map_append, List.map_cons] at h
            exact List.Nodup.sublist hsub h
          rw [ih pre hn]
          cases hm : mapPass1 t m <;> simp [mapPass1, hnil, hti, hm]
        · rw [setMapIndex_middle_set pre m k v d hd hpre hrest]
          have hregroup : pre ++ (k, d) :: m = (pre ++ [(k, d)]) ++ m := by simp
          have hn : (goMapKeys ((pre ++ [(k, d)]) ++ m)).Nodup := by
            have hk2 : goMapKeys ((pre ++ [(k, d)]) ++ m)
                = goMapKeys (pre ++ (k, v) :: m) := by
              simp [goMapKeys]
            rw [hk2]; exact h
          rw [hregroup, ih (pre ++ [(k, d)]) hn]
          cases hm : mapPass1 t m <;> simp [mapPass1, hnil, hti, hd, hm]
      | fail d e => simp [mapPass1, hnil, hti]
      | panicked e => simp [mapPass1, hnil, hti]

theorem nodup_keys_drop_middle (pre m : List (GoVal × GoVal)) (k v : GoVal)
    (h : (goMapKeys (pre ++ (k, v) :: m)).Nodup) :
    (goMapKeys (pre ++ m)).Nodup := by
  have hsub : List.Sublist ((pre.map Prod.fst) ++ (m.map Prod.fst))
      ((pre.map Prod.fst) ++ (k :: m.map Prod.fst)) :=
    List.Sublist.append_left (List.sublist_cons_self k (m.map Prod.fst)) _
  rw [goMapKeys, List.map_append]
  rw [goMapKeys, List.map_append, List.map_cons] at h
  exact List.Nodup.sublist hsub h

theorem mapPass2Loop_eq (sel : GoVal → GoVal → Bool) :
    ∀ (m pre : List (GoVal × GoVal)),
      (goMapKeys (pre ++ m)).Nodup →
      mapPass2Loop sel (goMapKeys m) (pre ++ m)
        = pre ++ m.filter (fun kv => sel kv.1 kv.2) := by
  intro m
  induction m with
  | nil =>
    intro pre _
    simp [mapPass2Loop, goMapKeys]
  | cons p m ih =>
    obtain ⟨k, v⟩ := p
    intro pre h
    obtain ⟨hpre, hrest⟩ := nodup_split_facts pre m k v h
    have hidx : mapIndex (pre ++ (k, v) :: m) k = some v := by
      rw [mapIndex_append_right pre _ k hpre, mapIndex_cons_self]
    show mapPass2Loop sel (k :: goMapKeys m) (pre ++ (k, v) :: m) = _
    simp only [mapPass2Loop, hidx]
    by_cases hsel : sel k v
    · rw [if_pos hsel]
      have hregroup : pre ++ (k, v) :: m = (pre ++ [(k, v)]) ++ m := by simp
      have hn : (goMapKeys ((pre ++ [(k, v)]) ++ m)).Nodup := by
        rw [← hregroup]; exact h
      rw [hregroup, ih (pre ++ [(k, v)]) hn]
      simp [List.filter_cons, hsel]
    · rw [if_neg hsel]
      rw [filter_out_key pre m k v hpre hrest]
      rw [ih pre (nodup_keys_drop_middle pre m k v h)]
      simp [List.filter_cons, hsel]

theorem mapPass1_keys_sublist (t : CTrans) :
    ∀ (m m1 : List (GoVal × GoVal)), mapPass1 t m = .ok m1 →
      List.Sublist (goMapKeys m1) (goMapKeys m) := by
  intro m
  induction m with
  | nil =>
    intro m1 h
    simp [mapPass1] at h
    subst h
    simp
  | cons p m ih =>
    obtain ⟨k, v⟩ := p
    intro m1 h
    by_cases hnil : isNil v
    · cases hm : mapPass1 t m with
      | ok m2 =>
        simp [mapPass1, hnil, hm] at h
        subst h
        simp only [goMapKeys, List.map_cons]
        exact List.Sublist.cons₂ _ (ih m2 hm)
      | fail m2 e => simp [mapPass1, hnil, hm] at h
      | panicked e => simp [mapPass1, hnil, hm] at h
    · cases hti : transformInterface t v with
      | ok d =>
        by_cases hd : d = GoVal.nilv
        · subst hd
          simp [mapPass1, hnil, hti] at h
          simp only [goMapKeys, List.map_cons]
          exact List.Sublist.trans (ih m1 h) (List.sublist_cons_self _ _)
        · cases hm : mapPass1 t m with
          | ok m2 =>
            simp [mapPass1, hnil, hti, hd, hm] at h
            subst h
            simp only [goMapKeys, List.map_cons]
            exact List.Sublist.cons₂ _ (ih m2 hm)
          | fail m2 e => simp [mapPass1, hnil, hti, hd, hm] at h
          | panicked e => simp [mapPass1, hnil, hti, hd, hm] at h
      | fail d e => simp [mapPass1, hnil, hti] at h
      | panicked e => simp [mapPass1, hnil, hti] at h

/-- The literal loop rendering of transformMap computes exactly the
entrywise two-pass transform, for every map with pairwise-distinct
keys (every real Go map). -/
theorem transformMap_loops_agree (t : CTrans) (m : List (GoVal × GoVal))
    (h : (goMapKeys m).Nodup) :
    transformMap t m = transformMapEntries t m := by
  unfold transformMap transformMapEntries
  have h1 := mapPass1Loop_eq t m [] (by simpa using h)
  simp only [List.nil_append] at h1
  rw [h1]
  cases hm : mapPass1 t m with
  | ok m1 =>
    simp only []
    have hn1 : (goMapKeys m1).Nodup :=
      List.Nodup.sublist (mapPass1_keys_sublist t m m1 hm) h
    have h2 := mapPass2Loop_eq t.kvSelector m1 [] (by simpa using hn1)
    simp only [List.nil_append] at h2
    rw [h2]
  | fail m1 e => simp only []
  | panicked e => simp only []

/-! ## Claim C2 -/

/-- Mapping transform as claim C2 words it: the first pass replaces
the value of each entry whose current value is non-nil by its
recursively transformed result (never removing an entry), skipping
nil-valued entries so no converter runs on them; the second pass
removes exactly the entries whose (key, post-conversion value) pair
the selector rejects.  Stated from the claim's words for comparison
with the code, which differs when a converter returns nil. -/
def specMapPass1 (t : CTrans) : List (GoVal × GoVal) → MRes
  | [] => .ok []
  | (k, v) :: rest =>
    if isNil v then
      match specMapPass1 t rest with
      | .ok m => .ok ((k, v) :: m)
      | .fail m e => .fail ((k, v) :: m) e
      | .panicked e => .panicked e
    else
      match transformInterface t v with
      | .ok d =>
        match specMapPass1 t rest with
        | .ok m => .ok ((k, d) :: m)
        | .fail m e => .fail ((k, d) :: m) e
        | .panicked e => .panicked e
      | .fail _ e => .fail ((k, v) :: rest) e
      | .panicked e => .panicked e

/-- The full claim-side mapping transform built on `specMapPass1`. -/
def specMapTransform (t : CTrans) (m : List (GoVal × GoVal)) : TRes :=
  match specMapPass1 t m with
  | .ok m1 => .ok (.gomap (m1.filter fun kv => t.kvSelector kv.1 kv.2))
  | .fail m1 e => .fail (.gomap m1) e
  | .panicked e => .panicked e

/-- A configurable transformer whose string converter returns the
untyped nil; every other slot is the default. -/
def nilReturningCTrans : CTrans :=
  { stringTransformer := fun _ => .nilv
    float64Transformer := fun f => .floatv f
    complex128Transformer := fun re im => .complexv re im
    sliceSelector := fun _ => true
    kvSelector := fun _ _ => true }

/-- C2 counterexample: on the one-entry map "a" ↦ "b" with a string
converter returning nil, the code's first pass deletes the entry
(SetMapIndex with reflect's zero Value stores nothing and removes the
key), yielding the empty map, while the first pass the claim describes
would keep the entry with a nil value and the keep-all pair selector
would then retain it. -/
theorem c2_counterexample :
    transformMap nilReturningCTrans [(.strv "a", .strv "b")]
      ≠ specMapTransform nilReturningCTrans [(.strv "a", .strv "b")] := by
  decide

/-- C2 (amended): for every mapping with pairwise-distinct keys and
every configurable transformer, the code first replaces the value of
each entry whose current value is non-nil by its recursively
transformed result, skipping nil-valued entries so no converter runs
on them — except that an entry whose transformed result is the untyped
nil is deleted already by this first pass — and then, in a second pass
over a snapshot of the keys, removes exactly those remaining entries
for which the pair selector rejects the (key, post-conversion value)
pair; on the example map nil↦1, 2↦nil, "3"↦4, removing nil keys keeps
2↦nil and "3"↦4, removing nil values keeps nil↦1 and "3"↦4, and
removing both keeps "3"↦4. -/
theorem c2_map_transform_two_pass :
    (∀ (t : CTrans) (m : List (GoVal × GoVal)), (goMapKeys m).Nodup →
        transformMap t m =
          match mapPass1 t m with
          | .ok m1 => .ok (.gomap (m1.filter fun kv => t.kvSelector kv.1 kv.2))
          | .fail m1 e => .fail (.gomap m1) e
          | .panicked e => .panicked e)
  ∧ nilRemovalTransform true false false
      (.gomap [(.nilv, .intv 1), (.intv 2, .nilv), (.strv "3", .intv 4)])
      = .ok (.gomap [(.intv 2, .nilv), (.strv "3", .intv 4)])
  ∧ nilRemovalTransform false true false
      (.gomap [(.nilv, .intv 1), (.intv 2, .nilv), (.strv "3", .intv 4)])
      = .ok (.gomap [(.nilv, .intv 1), (.strv "3", .intv 4)])
  ∧ nilRemovalTransform true true false
      (.gomap [(.nilv, .intv 1), (.intv 2, .nilv), (.strv "3", .intv 4)])
      = .ok (.gomap [(.strv "3", .intv 4)]) := by
  refine ⟨fun t m h => ?_, by rfl, by rfl, by rfl⟩
  exact (transformMap_loops_agree t m h).trans rfl

/-! ## Claim C4: idempotence of nil removal -/

/-- Key k does not occur among the entry keys (under Go's ==). -/
def keyNotIn (k : GoVal) : List (GoVal × GoVal) → Bool
  | [] => true
  | (k2, _) :: m => !gvBEq k2 k && keyNotIn k m

/-- Pairwise-distinct entry keys, as Bool. -/
def keysNodupB : List (GoVal × GoVal) → Bool
  | [] => true
  | (k, _) :: m => keyNotIn k m && keysNodupB m

theorem keyNotIn_iff (k : GoVal) :
    ∀ m, keyNotIn k m = true ↔ k ∉ goMapKeys m := by
  intro m
  induction m with
  | nil => simp [keyNotIn, goMapKeys]
  | cons p m ih =>
    obtain ⟨k2, v⟩ := p
    simp only [keyNotIn, goMapKeys, List.map_cons, List.mem_cons,
      Bool.and_eq_true, Bool.not_eq_eq_eq_not, Bool.not_true] at *
    rw [gvBEq_eq_false_iff]
    constructor
    · rintro ⟨h1, h2⟩ (h3 | h3)
      · exact h1 h3.symm
      · exact (ih.mp h2) h3
    · intro h
      exact ⟨fun he => h (Or.inl he.symm), ih.mpr (fun hm => h (Or.inr hm))⟩

theorem keysNodupB_iff :
    ∀ m, keysNodupB m = true ↔ (goMapKeys m).Nodup := by
  intro m
  induction m with
  | nil => simp [keysNodupB, goMapKeys]
  | cons p m ih =>
    obtain ⟨k, v⟩ := p
    simp only [keysNodupB, Bool.and_eq_true, goMapKeys, List.map_cons,
      List.nodup_cons]
    rw [keyNotIn_iff, ih]
    constructor
    · exact fun h => ⟨h.1, h.2⟩
    · exact fun h => ⟨h.1, h.2⟩

mutual
/-- Well-formed dynamic values: values a decoder can actually hand to
the engine.  Every nested map has pairwise-distinct keys (as every
real Go map does) and no concrete-typed string slice appears (the §3
value model has none; those values enter only through the delimited
text adapters and make the engine panic, the subject of C6). -/
def WFv : GoVal → Bool
  | .slice xs => WFl xs
  | .gomap m => keysNodupB m && WFm m
  | .strSlice _ => false
  | _ => true

def WFl : List GoVal → Bool
  | [] => true
  | x :: xs => WFv x && WFl xs

def WFm : List (GoVal × GoVal) → Bool
  | [] => true
  | (k, v) :: m => WFv k && WFv v && WFm m
end

theorem WFl_iff : ∀ xs, WFl xs = true ↔ ∀ x ∈ xs, WFv x = true := by
  intro xs
  induction xs with
  | nil => simp [WFl]
  | cons x xs ih => simp [WFl, ih]

theorem WFm_iff :
    ∀ m : List (GoVal × GoVal),
      WFm m = true ↔ ∀ p ∈ m, WFv p.1 = true ∧ WFv p.2 = true := by
  intro m
  induction m with
  | nil => simp [WFm]
  | cons p m ih =>
    obtain ⟨k, v⟩ := p
    simp [WFm, ih]
    try tauto

/-- Converters that leave every scalar unchanged: the defaults every
nil-removal configuration uses. -/
def IdentityConverters (t : CTrans) : Prop :=
  (∀ s, t.stringTransformer s = .strv s) ∧
  (∀ f, t.float64Transformer f = .floatv f) ∧
  (∀ re im, t.complex128Transformer re im = .complexv re im)

theorem slicePass1_pointwise (t : CTrans) :
    ∀ (xs : List GoVal),
      (∀ x ∈ xs, ∃ w, transformInterface t x = .ok w ∧ WFv w = true ∧
          transformInterface t w = .ok w) →
      ∃ ws, slicePass1 t xs = .ok ws ∧
        (∀ w ∈ ws, WFv w = true ∧ transformInterface t w = .ok w) := by
  intro xs
  induction xs with
  | nil => exact fun _ => ⟨[], rfl, by simp⟩
  | cons x xs ih =>
    intro h
    obtain ⟨w, hw1, hw2, hw3⟩ := h x (by simp)
    obtain ⟨ws, hws1, hws2⟩ := ih (fun y hy => h y (by simp [hy]))
    refine ⟨w :: ws, by simp [slicePass1, hw1, hws1], ?_⟩
    intro z hz
    rcases List.mem_cons.mp hz with h1 | h1
    · subst h1; exact ⟨hw2, hw3⟩
    · exact hws2 z h1

theorem slicePass1_fixed (t : CTrans) :
    ∀ (ws : List GoVal), (∀ w ∈ ws, transformInterface t w = .ok w) →
      slicePass1 t ws = .ok ws := by
  intro ws
  induction ws with
  | nil => exact fun _ => rfl
  | cons w ws ih =>
    intro h
    have h1 := h w (by simp)
    have h2 := ih (fun y hy => h y (by simp [hy]))
    simp [slicePass1, h1, h2]

theorem mapPass1_pointwise (t : CTrans) :
    ∀ (m : List (GoVal × GoVal)),
      (∀ p ∈ m, WFv p.1 = true ∧ WFv p.2 = true ∧ (isNil p.2 = false →
          ∃ w, transformInterface t p.2 = .ok w ∧ WFv w = true ∧
            transformInterface t w = .ok w ∧ isNil w = false)) →
      ∃ m1, mapPass1 t m = .ok m1 ∧ goMapKeys m1 = goMapKeys m ∧
        (∀ p ∈ m1, WFv p.1 = true ∧ WFv p.2 = true ∧
          (isNil p.2 = true ∨ (isNil p.2 = false ∧
            transformInterface t p.2 = .ok p.2))) := by
  intro m
  induction m with
  | nil => exact fun _ => ⟨[], rfl, rfl, by simp⟩
  | cons p m ih =>
    intro h
    obtain ⟨k, v⟩ := p
    obtain ⟨hk, hv, hw⟩ := h (k, v) (by simp)
    obtain ⟨m1, h1, h2, h3⟩ := ih (fun q hq => h q (by simp [hq]))
    by_cases hnil : isNil v
    · refine ⟨(k, v) :: m1,
        by simp [mapPass1, hnil, h1],
        by simp only [goMapKeys, List.map_cons] at h2 ⊢; rw [h2], ?_⟩
      intro q hq
      rcases List.mem_cons.mp hq with h4 | h4
      · subst h4; exact ⟨hk, hv, Or.inl hnil⟩
      · exact h3 q h4
    · obtain ⟨w, hw1, hw2, hw3, hw4⟩ := hw (by simpa using hnil)
      have hwne : ¬(w = GoVal.nilv) := by
        intro he; subst he; simp [isNil] at hw4
      refine ⟨(k, w) :: m1,
        by simp [mapPass1, hnil, hw1, hwne, h1],
        by simp only [goMapKeys, List.map_cons] at h2 ⊢; rw [h2], ?_⟩
      intro q hq
      rcases List.mem_cons.mp hq with h4 | h4
      · subst h4; exact ⟨hk, hw2, Or.inr ⟨hw4, hw3⟩⟩
      · exact h3 q h4

theorem mapPass1_fixed (t : CTrans) :
    ∀ (m2 : List (GoVal × GoVal)),
      (∀ p ∈ m2, isNil p.2 = true ∨ (isNil p.2 = false ∧
          transformInterface t p.2 = .ok p.2)) →
      mapPass1 t m2 = .ok m2 := by
  intro m2
  induction m2 with
  | nil => exact fun _ => rfl
  | cons p m ih =>
    intro h
    obtain ⟨k, v⟩ := p
    have h2 := ih (fun q hq => h q (by simp [hq]))
    rcases h (k, v) (by simp) with hnil | ⟨hnil, hfix⟩
    · simp [mapPass1, hnil, h2]
    · have hvne : ¬(v = GoVal.nilv) := by
        intro he; subst he; simp [isNil] at hnil
      simp [mapPass1, hnil, hfix, hvne, h2]

theorem filter_self_again {α : Type} (p : α → Bool) (l : List α) :
    (l.filter p).filter p = l.filter p :=
  List.filter_eq_self.mpr (fun a ha => List.of_mem_filter ha)

/-- With identity converters (the nil-removal configurations), the
engine is total on well-formed values and its output is a fixed point:
running the transform again reproduces it unchanged. -/
theorem transform_identity_fixpoint (t : CTrans) (hid : IdentityConverters t) :
    ∀ (n : Nat) (v : GoVal), sizeOf v ≤ n → WFv v = true →
      ∃ w, transformInterface t v = .ok w ∧ WFv w = true ∧
        transformInterface t w = .ok w ∧ (isNil v = false → isNil w = false) := by
  obtain ⟨hidS, hidF, hidC⟩ := hid
  intro n
  induction n with
  | zero =>
    intro v hsz _
    exfalso
    cases v <;> simp_all
  | succ n ih =>
    intro v hsz hwf
    cases v with
    | nilv => exact ⟨.nilv, rfl, rfl, rfl, fun h => h⟩
    | boolv b => exact ⟨.boolv b, rfl, rfl, rfl, fun h => h⟩
    | intv i => exact ⟨.intv i, rfl, rfl, rfl, fun h => h⟩
    | floatv f =>
      refine ⟨.floatv f, ?_, rfl, ?_, fun h => h⟩
      · show TRes.ok (t.float64Transformer f) = _
        rw [hidF]
      · show TRes.ok (t.float64Transformer f) = _
        rw [hidF]
    | complexv re im =>
      refine ⟨.complexv re im, ?_, rfl, ?_, fun h => h⟩
      · show TRes.ok (t.complex128Transformer re im) = _
        rw [hidC]
      · show TRes.ok (t.complex128Transformer re im) = _
        rw [hidC]
    | strv s =>
      refine ⟨.strv s, ?_, rfl, ?_, fun h => h⟩
      · show TRes.ok (t.stringTransformer s) = _
        rw [hidS]
      · show TRes.ok (t.stringTransformer s) = _
        rw [hidS]
    | nilSlice =>
      exact ⟨.nilv, rfl, rfl, rfl, fun h => by simp [isNil] at h⟩
    | nilStrSlice =>
      exact ⟨.nilv, rfl, rfl, rfl, fun h => by simp [isNil] at h⟩
    | nilMap =>
      exact ⟨.nilv, rfl, rfl, rfl, fun h => by simp [isNil] at h⟩
    | strSlice xs => simp [WFv] at hwf
    | slice xs =>
      have hb : ∀ x ∈ xs, sizeOf x ≤ n := by
        intro x hx
        have h1 := List.sizeOf_lt_of_mem hx
        have h2 : sizeOf (GoVal.slice xs) = 1 + sizeOf xs := by simp
        omega
      have hwfl : ∀ x ∈ xs, WFv x = true := (WFl_iff xs).mp (by simpa [WFv] using hwf)
      obtain ⟨ws, hws1, hws2⟩ := slicePass1_pointwise t xs (fun x hx => by
        obtain ⟨w, hw1, hw2, hw3, _⟩ := ih x (hb x hx) (hwfl x hx)
        exact ⟨w, hw1, hw2, hw3⟩)
      refine ⟨.slice (ws.filter t.sliceSelector), ?_, ?_, ?_, fun _ => rfl⟩
      · rw [transformInterface_slice]
        unfold transformSlice
        rw [hws1]
        simp only []
        rw [removeFailing_zero]
      · show WFl (ws.filter t.sliceSelector) = true
        rw [WFl_iff]
        intro z hz
        exact (hws2 z (List.mem_of_mem_filter hz)).1
      · rw [transformInterface_slice]
        unfold transformSlice
        rw [slicePass1_fixed t _ (fun z hz => (hws2 z (List.mem_of_mem_filter hz)).2)]
        simp only []
        rw [removeFailing_zero, filter_self_again]
    | gomap m =>
      have hb : ∀ p ∈ m, sizeOf p.2 ≤ n := by
        intro p hp
        have h1 := List.sizeOf_lt_of_mem hp
        have h2 : sizeOf (GoVal.gomap m) = 1 + sizeOf m := by simp
        obtain ⟨a, b⟩ := p
        have h3 : sizeOf (a, b) = 1 + sizeOf a + sizeOf b := by simp
        simp only [] at h1 ⊢
        omega
      have hwf2 : keysNodupB m = true ∧ WFm m = true := by
        have : (keysNodupB m && WFm m) = true := by simpa [WFv] using hwf
        simpa [Bool.and_eq_true] using this
      have hents : ∀ p ∈ m, WFv p.1 = true ∧ WFv p.2 = true := (WFm_iff m).mp hwf2.2
      obtain ⟨m1, h1, hkeys, h3⟩ := mapPass1_pointwise t m (fun p hp => by
        refine ⟨(hents p hp).1, (hents p hp).2, fun hnn => ?_⟩
        obtain ⟨w, hw1, hw2, hw3, hw4⟩ := ih p.2 (hb p hp) (hents p hp).2
        exact ⟨w, hw1, hw2, hw3, hw4 hnn⟩)
      refine ⟨.gomap (m1.filter fun kv => t.kvSelector kv.1 kv.2), ?_, ?_, ?_, fun _ => rfl⟩
      · rw [transformInterface_gomap]
        unfold transformMapEntries
        rw [h1]
      · show (keysNodupB (m1.filter fun kv => t.kvSelector kv.1 kv.2)
            && WFm (m1.filter fun kv => t.kvSelector kv.1 kv.2)) = true
        rw [Bool.and_eq_true]
        constructor
        · rw [keysNodupB_iff]
          have hnd : (goMapKeys m1).Nodup := by
            rw [hkeys, ← keysNodupB_iff]
            exact hwf2.1
          have hsub : List.Sublist
              (goMapKeys (m1.filter fun kv => t.kvSelector kv.1 kv.2))
              (goMapKeys m1) :=
            List.Sublist.map Prod.fst (List.filter_sublist m1)
          exact List.Nodup.sublist hsub hnd
        · rw [WFm_iff]
          intro p hp
          have h4 := h3 p (List.mem_of_mem_filter hp)
          exact ⟨h4.1, h4.2.1⟩
      · rw [transformInterface_gomap]
        unfold transformMapEntries
        rw [mapPass1_fixed t _ (fun p hp => (h3 p (List.mem_of_mem_filter hp)).2.2)]
        simp only []
        rw [filter_self_again]

/-- A configurable transformer with all converter slots omitted is
total on well-formed values and idempotent: its output is reproduced
unchanged by a second run. -/
theorem newConfigurable_selectors_idempotent
    (es : Option (GoVal → Bool)) (kv : Option (GoVal → GoVal → Bool))
    (v : GoVal) (hwf : WFv v = true) :
    ∃ w, NewConfigurableTransformer none none none es kv v = .ok w ∧
      NewConfigurableTransformer none none none es kv w = .ok w := by
  unfold NewConfigurableTransformer
  by_cases hcond : ((none : Option (String → GoVal)).isNone
      && (none : Option (GoFloat → GoVal)).isNone
      && (none : Option (GoFloat → GoFloat → GoVal)).isNone
      && es.isNone && kv.isNone) = true
  · rw [if_pos hcond]
    exact ⟨v, rfl, rfl⟩
  · rw [if_neg hcond]
    set t : CTrans :=
      { stringTransformer := (none : Option (String → GoVal)).getD (fun s2 => .strv s2)
        float64Transformer := (none : Option (GoFloat → GoVal)).getD (fun f2 => .floatv f2)
        complex128Transformer :=
          (none : Option (GoFloat → GoFloat → GoVal)).getD (fun re im => .complexv re im)
        sliceSelector := es.getD (fun _ => true)
        kvSelector := kv.getD (fun _ _ => true) } with ht
    have hid : IdentityConverters t := ⟨fun _ => rfl, fun _ => rfl, fun _ _ => rfl⟩
    by_cases hv : v = GoVal.nilv
    · subst hv
      refine ⟨.nilv, ?_, ?_⟩ <;> simp [callingTransform]
    · obtain ⟨w, hw1, _, hw3, _⟩ :=
        transform_identity_fixpoint t hid (sizeOf v) v le_rfl hwf
      refine ⟨w, ?_, ?_⟩
      · unfold callingTransform
        rw [if_neg hv, hw1]
      · unfold callingTransform
        by_cases hw : w = GoVal.nilv
        · rw [if_pos hw, hw]
        · rw [if_neg hw, hw3]

/-- C4: for every well-formed value tree and every combination of the
three toggles, the nil-removal transformer never errors and is
idempotent: a second application reproduces the first application's
result unchanged; on the nested example map "a"↦nil, nil↦"b",
"c"↦[nil, 1] with all three toggles on, the result is the map with the
single entry "c"↦[1], itself a fixed point. -/
theorem c4_nil_removal_idempotent :
    (∀ (rk rv re : Bool) (v : GoVal), WFv v = true →
        ∃ w, nilRemovalTransform rk rv re v = .ok w ∧
          nilRemovalTransform rk rv re w = .ok w)
  ∧ (nilRemovalTransform true true true
        (.gomap [(.strv "a", .nilv), (.nilv, .strv "b"),
          (.strv "c", .slice [.nilv, .intv 1])])
        = .ok (.gomap [(.strv "c", .slice [.intv 1])])
      ∧ nilRemovalTransform true true true
          (.gomap [(.strv "c", .slice [.intv 1])])
          = .ok (.gomap [(.strv "c", .slice [.intv 1])])) := by
  constructor
  · intro rk rv re v hwf
    unfold nilRemovalTransform
    by_cases hv : v = GoVal.nilv
    · rw [if_pos hv]
      refine ⟨v, rfl, ?_⟩
      rw [if_pos hv]
    · rw [if_neg hv]
      obtain ⟨w, hw1, hw2⟩ := newConfigurable_selectors_idempotent
        (if re then some NonNilElementSelector else none)
        (if rk && rv then some NonNilKeyValueSelector
         else if rk then some NonNilKeySelector
         else if rv then some NonNilValueSelector
         else none) v hwf
      refine ⟨w, hw1, ?_⟩
      by_cases hw : w = GoVal.nilv
      · rw [if_pos hw]
      · rw [if_neg hw]
        exact hw2
  · constructor
    · have h1 : nilRemovalTransform true true true
          (.gomap [(.strv "a", .nilv), (.nilv, .strv "b"),
            (.strv "c", .slice [.nilv, .intv 1])])
          = .ok (.gomap [(.strv "c",
              .slice (removeFailing NonNilElementSelector [.nilv, .intv 1] 0))]) := rfl
      rw [h1, removeFailing_zero]
      rfl
    · have h2 : nilRemovalTransform true true true
          (.gomap [(.strv "c", .slice [.intv 1])])
          = .ok (.gomap [(.strv "c",
              .slice (removeFailing NonNilElementSelector [.intv 1] 0))]) := rfl
      rw [h2, removeFailing_zero]
      rfl

/-! ## Claim C5: the transformer pipeline -/

theorem pipelineTransform_append_ok :
    ∀ (ts1 ts2 : List (Option Transformer)) (v w : GoVal),
      pipelineTransform ts1 v = .ok w →
      pipelineTransform (ts1 ++ ts2) v = pipelineTransform ts2 w := by
  intro ts1
  induction ts1 with
  | nil =>
    intro ts2 v w h
    simp [pipelineTransform] at h
    subst h
    rfl
  | cons t ts1 ih =>
    intro ts2 v w h
    cases t with
    | none => exact ih ts2 v w h
    | some f =>
      show (match f v with
        | .ok v2 => pipelineTransform (ts1 ++ ts2) v2
        | .fail v2 e => .fail v2 e
        | .panicked e => .panicked e) = _
      cases hf : f v with
      | ok v2 =>
        simp only []
        apply ih
        simpa [pipelineTransform, hf] using h
      | fail v2 e => simp [pipelineTransform, hf] at h
      | panicked e => simp [pipelineTransform, hf] at h

/-- C5: the pipeline applies its stages strictly left to right, each
stage receiving the previous stage's output (the composition law for
any split of the stage list); a nil slot is skipped silently; and the
first stage returning an error ends the pipeline — the result is that
stage's (value, error) pair whatever stages follow, so the stages
after the failing one are never invoked and the partially-transformed
value is handed back alongside the error. -/
theorem c5_pipeline_left_to_right_short_circuit :
    (∀ (ts : List (Option Transformer)) (v : GoVal),
        pipelineTransform (none :: ts) v = pipelineTransform ts v)
  ∧ (∀ (ts1 ts2 : List (Option Transformer)) (v w : GoVal),
        pipelineTransform ts1 v = .ok w →
        pipelineTransform (ts1 ++ ts2) v = pipelineTransform ts2 w)
  ∧ (∀ (ts1 ts2 : List (Option Transformer)) (f : Transformer)
        (v u w : GoVal) (e : String),
        pipelineTransform ts1 v = .ok u → f u = .fail w e →
        pipelineTransform (ts1 ++ some f :: ts2) v = .fail w e) := by
  refine ⟨fun ts v => rfl, pipelineTransform_append_ok, ?_⟩
  intro ts1 ts2 f v u w e h1 h2
  rw [pipelineTransform_append_ok ts1 (some f :: ts2) v u h1]
  show (match f u with
    | .ok v2 => pipelineTransform ts2 v2
    | .fail v2 e2 => .fail v2 e2
    | .panicked e2 => .panicked e2) = _
  rw [h2]

/-! ## Claim C7: the nullness test -/

/-- C7: isNil holds exactly for the nil interface and for container
values whose underlying reference is absent, and fails for
present-but-empty containers and for every scalar. -/
theorem c7_isNil_characterization :
    (∀ v : GoVal, isNil v = true ↔
        (v = .nilv ∨ v = .nilSlice ∨ v = .nilStrSlice ∨ v = .nilMap))
  ∧ isNil (.slice []) = false
  ∧ isNil (.gomap []) = false
  ∧ isNil (.strSlice []) = false
  ∧ (∀ b, isNil (.boolv b) = false)
  ∧ (∀ i, isNil (.intv i) = false)
  ∧ (∀ f, isNil (.floatv f) = false)
  ∧ (∀ s, isNil (.strv s) = false) := by
  refine ⟨fun v => ?_, rfl, rfl, rfl, fun b => rfl, fun i => rfl,
    fun f => rfl, fun s => rfl⟩
  cases v <;> simp [isNil]

/-! ## Format value adapters -/

/-- Go's strings.Split for a single-character separator.  Every
record and field delimiter normalizeDelim can produce is either empty
(not this code path) or exactly one character, so the single-character
split is the whole configuration space of readSeparatedStrings. -/
def splitChar (c : Char) : List Char → List (List Char)
  | [] => [[]]
  | x :: xs =>
    if x = c then [] :: splitChar c xs
    else
      match splitChar c xs with
      | r :: rs => (x :: r) :: rs
      | [] => [[x]]

/-- Model of readSeparatedStrings: strings.Split of the data by the
separator. -/
def readSeparatedStrings (data : List Char) (separator : Char) : List (List Char) :=
  splitChar separator data

def endsWithChar (s : List Char) (c : Char) : Bool :=
  match s.getLast? with
  | some x => x = c
  | none => false

/-- The record-splitting step of TextFormat.Unmarshal for an explicit
record delimiter: split, then drop the final record exactly when it is
empty (the two nested length tests of the source; a getLast? of none
is the source's len == 0 guard, unreachable since the split is never
empty). -/
def textRecords (rdelim : Char) (input : List Char) : List (List Char) :=
  let records := readSeparatedStrings input rdelim
  match records.getLast? with
  | some last => if last.length = 0 then records.dropLast else records
  | none => records

/-- Line-ending removal of bufio.ScanLines: a trailing carriage return
is stripped from each newline-terminated line. -/
def dropCR (l : List Char) : List Char :=
  if endsWithChar l '\r' then l.dropLast else l

/-- Model of readLines: bufio.Scanner with ScanLines.  Tokens are the
newline-separated chunks without their line endings; a terminal
newline produces no empty final token, and empty input produces no
tokens at all. -/
def goReadLines (input : List Char) : List (List Char) :=
  if input = [] then []
  else
    let parts := splitChar '\n' input
    let parts2 :=
      match parts.getLast? with
      | some last => if last = [] then parts.dropLast else parts
      | none => parts
    parts2.map dropCR

/-- Model of TextFormat.Unmarshal: split the input into records
(lines when no record delimiter is configured, the delimiter split
with the trailing-empty-record drop otherwise); with no field
delimiter the records are returned as the concrete-typed string slice
Go builds there, and with one each record is further split into a
generic list of field strings. -/
def textUnmarshal (rdelim fdelim : Option Char) (input : List Char) : GoVal :=
  let records : List (List Char) :=
    match rdelim with
    | none => goReadLines input
    | some d => textRecords d input
  match fdelim with
  | none => .strSlice (records.map fun cs => String.mk cs)
  | some fd => .slice (records.map fun r =>
      .slice ((splitChar fd r).map fun f => .strv (String.mk f)))

/-- Model of the document-collecting part of YAMLFormat.Unmarshal:
the external decoder hands back one value per document in stream
order (an empty or absent document leaves the decode target at the
nil interface); a stream of exactly one document yields that document
itself, any other count yields the list of documents. -/
def yamlUnmarshalDocs (documents : List GoVal) : GoVal :=
  match documents with
  | [d] => d
  | ds => .slice ds

/-! ## Claim C9 -/

/-- C9: a multi-document stream decodes to the list of its documents
in stream order with an absent document as the nil value — in
particular the four-document stream of the repository's own test,
whose third document is absent — while a single-document stream
yields the document itself, unwrapped. -/
theorem c9_multi_document_flattening :
    (∀ d : GoVal, yamlUnmarshalDocs [d] = d)
  ∧ (∀ ds : List GoVal, ds.length ≠ 1 → yamlUnmarshalDocs ds = .slice ds)
  ∧ yamlUnmarshalDocs
      [.gomap [(.strv "a", .strv "b")], .gomap [(.strv "c", .intv 1)], .nilv,
        .gomap [(.strv "d", .strv "e f")]]
      = .slice [.gomap [(.strv "a", .strv "b")], .gomap [(.strv "c", .intv 1)],
        .nilv, .gomap [(.strv "d", .strv "e f")]] := by
  refine ⟨fun d => rfl, ?_, rfl⟩
  intro ds h
  cases ds with
  | nil => rfl
  | cons d ds2 =>
    cases ds2 with
    | nil => exact absurd rfl h
    | cons d2 ds3 => rfl

/-! ## Claim C10 -/

theorem splitChar_ne_nil (d : Char) : ∀ s, splitChar d s ≠ [] := by
  intro s
  cases s with
  | nil => simp [splitChar]
  | cons x xs =>
    by_cases hx : x = d
    · simp [splitChar, hx]
    · cases heq : splitChar d xs with
      | nil => simp [splitChar, hx, heq]
      | cons r rs => simp [splitChar, hx, heq]

theorem splitChar_eq_single_nil (d : Char) (s : List Char)
    (h : splitChar d s = [[]]) : s = [] := by
  cases s with
  | nil => rfl
  | cons y ys =>
    exfalso
    have hne := splitChar_ne_nil d ys
    cases heq : splitChar d ys with
    | nil => exact hne heq
    | cons r rs =>
      by_cases hy : y = d
      · rw [show splitChar d (y :: ys) = [] :: splitChar d ys from by
          simp [splitChar, hy]] at h
        rw [heq] at h
        simp at h
      · rw [show splitChar d (y :: ys) = (y :: r) :: rs from by
          simp [splitChar, hy, heq]] at h
        simp at h

theorem splitChar_last_empty (d : Char) :
    ∀ s : List Char, ((splitChar d s).getLast? = some [])
      ↔ (s = [] ∨ endsWithChar s d = true) := by
  intro s
  induction s with
  | nil => simp [splitChar, endsWithChar]
  | cons x xs ih =>
    have hne := splitChar_ne_nil d xs
    by_cases hx : x = d
    · rw [show splitChar d (x :: xs) = [] :: splitChar d xs from by
        simp [splitChar, hx]]
      cases heq : splitChar d xs with
      | nil => exact absurd heq hne
      | cons r rs =>
        rw [heq] at ih
        rw [List.getLast?_cons_cons, ih]
        cases xs with
        | nil =>
          simp [endsWithChar, hx]
        | cons y ys =>
          have hlast : endsWithChar (x :: y :: ys) d = endsWithChar (y :: ys) d := by
            unfold endsWithChar
            rw [List.getLast?_cons_cons]
          rw [hlast]
          simp
    · cases heq : splitChar d xs with
      | nil => exact absurd heq hne
      | cons r rs =>
        rw [show splitChar d (x :: xs) = (x :: r) :: rs from by
          simp [splitChar, hx, heq]]
        cases hrs : rs with
        | nil =>
          subst hrs
          simp only [List.getLast?_singleton]
          constructor
          · intro hc
            exfalso
            simp at hc
          · intro hc
            exfalso
            rcases hc with hc | hc
            · simp at hc
            · cases xs with
              | nil =>
                simp [endsWithChar] at hc
                exact hx hc
              | cons y ys =>
                have hlast : endsWithChar (x :: y :: ys) d
                    = endsWithChar (y :: ys) d := by
                  unfold endsWithChar
                  rw [List.getLast?_cons_cons]
                rw [hlast] at hc
                have h2 := ih.mpr (Or.inr hc)
                rw [heq] at h2
                simp only [List.getLast?_singleton] at h2
                have hr0 : r = [] := by
                  injection h2
                subst hr0
                have hxs := splitChar_eq_single_nil d (y :: ys) heq
                simp at hxs
        | cons r2 rs2 =>
          subst hrs
          rw [heq] at ih
          rw [List.getLast?_cons_cons] at ih
          rw [List.getLast?_cons_cons, ih]
          cases xs with
          | nil => simp [splitChar] at heq
          | cons y ys =>
            have hlast : endsWithChar (x :: y :: ys) d = endsWithChar (y :: ys) d := by
              unfold endsWithChar
              rw [List.getLast?_cons_cons]
            rw [hlast]
            simp

/-- The record list as claim C10 words it: the delimiter split of the
input, with a single final empty record removed exactly when the input
ends with the delimiter.  Stated from the claim for comparison with
the code. -/
def claimTextRecords (rdelim : Char) (input : List Char) : List (List Char) :=
  if endsWithChar input rdelim = true then (splitChar rdelim input).dropLast
  else splitChar rdelim input

/-- C10 counterexample: on the empty input the delimiter split yields
one empty record and the code drops it, although the empty input does
not end with the delimiter, so the claim's record list keeps it. -/
theorem c10_counterexample :
    textRecords ',' [] ≠ claimTextRecords ',' [] := by
  decide

theorem textRecords_characterization (d : Char) (s : List Char) :
    textRecords d s =
      if s = [] ∨ endsWithChar s d = true then (splitChar d s).dropLast
      else splitChar d s := by
  have hbody : textRecords d s =
      match (splitChar d s).getLast? with
      | some last =>
        if last.length = 0 then (splitChar d s).dropLast else splitChar d s
      | none => splitChar d s := rfl
  rw [hbody]
  cases heq : (splitChar d s).getLast? with
  | none =>
    exfalso
    exact splitChar_ne_nil d s (List.getLast?_eq_none_iff.mp heq)
  | some last =>
    simp only []
    by_cases hl : last.length = 0
    · rw [if_pos hl]
      have hlast0 : last = [] := List.length_eq_zero.mp hl
      subst hlast0
      have hcond := (splitChar_last_empty d s).mp heq
      rw [if_pos hcond]
    · rw [if_neg hl]
      have hcond : ¬(s = [] ∨ endsWithChar s d = true) := by
        intro hc
        have h2 := (splitChar_last_empty d s).mpr hc
        rw [heq] at h2
        have h3 : last = [] := by injection h2
        exact hl (by rw [h3]; rfl)
      rw [if_neg hcond]

/-- C10 (amended): with an explicit record delimiter, decoding drops
exactly one trailing empty record — the record list is the delimiter
split with a single final empty record removed when the input ends
with the delimiter or is empty; empty records elsewhere survive, a
doubled final delimiter keeps its second empty record, and a
non-delimiter-terminated non-empty input loses nothing. -/
theorem c10_trailing_empty_record :
    (∀ (d : Char) (s : List Char),
        textRecords d s =
          if s = [] ∨ endsWithChar s d = true then (splitChar d s).dropLast
          else splitChar d s)
  ∧ textRecords ',' ['a', ',', ',', 'b'] = [['a'], [], ['b']]
  ∧ textRecords ',' ['a', ',', 'b', ','] = [['a'], ['b']]
  ∧ textRecords ',' ['a', ',', ','] = [['a'], []]
  ∧ textRecords ',' ['a'] = [['a']]
  ∧ textUnmarshal (some '|') none ['a', '|', 'b', '|'] = .strSlice ["a", "b"] := by
  exact ⟨textRecords_characterization, by decide, by decide, by decide,
    by decide, by rfl⟩

/-! ## Claim C6 -/

/-- C6: the engine aborts by a runtime panic — the type assertion of
the dynamic value to a generic interface slice fails — whenever it
meets a concrete-typed string slice, instead of returning a value or
an error; and those values are exactly what the text adapters produce
when no field delimiter is configured (lines, null-terminated strings,
and delimiter-split records alike).  This exhibits the code aborting
where the spec requires the engine to operate over arbitrary dynamic
values. -/
theorem c6_string_slice_panics :
    nilRemovalTransform false false true (.strSlice ["a", "b"])
      = .panicked interfaceConversionMsg
  ∧ NewConfigurableTransformer (some StringToFiniteNumberParser)
      none none none none (.strSlice ["a", "b"])
      = .panicked interfaceConversionMsg
  ∧ textUnmarshal (some '|') none ['a', '|', 'b'] = .strSlice ["a", "b"]
  ∧ pipelineTransform
      [some (fun data => .ok data),
       some (nilRemovalTransform false false true)]
      (textUnmarshal (some '|') none ['a', '|', 'b'])
      = .panicked interfaceConversionMsg := by
  exact ⟨rfl, rfl, rfl, rfl⟩

/-! ## Claim C8: exit codes -/

def exitNoError : Nat := 0
def exitInputError : Nat := 1
def exitOutputError : Nat := 2
def exitTransformError : Nat := 4
def exitConfigurationError : Nat := 32

/-- Stage provenance of a conversion failure.  The Go error values
flow through ConvertStream untagged; the tag records which call
produced the error the function returns. -/
inductive ConvErr where
  | decodeErr (msg : String)
  | transformErr (msg : String)
  | encodeErr (msg : String)
deriving DecidableEq, Repr

/-- Outcome of one ConvertStream run, a panic kept apart since it
aborts the process instead of returning. -/
inductive ConvRes where
  | done
  | err (e : ConvErr)
  | panicked (msg : String)
deriving DecidableEq, Repr

/-- Model of ConvertStream: unmarshal, then transform when a
transformer is present, then marshal, stopping at the first error. -/
def convertStream (unmarshal : Except String GoVal)
    (transformer : Option Transformer)
    (marshal : GoVal → Except String Unit) : ConvRes :=
  match unmarshal with
  | .error e => .err (.decodeErr e)
  | .ok data =>
    match transformer with
    | none =>
      match marshal data with
      | .ok _ => .done
      | .error e => .err (.encodeErr e)
    | some t =>
      match t data with
      | .fail _ e => .err (.transformErr e)
      | .panicked e => .panicked e
      | .ok transformed =>
        match marshal transformed with
        | .ok _ => .done
        | .error e => .err (.encodeErr e)

/-- Exit code of the convert command's action: it calls
exit(exitTransformError, ...) on any error ConvertFile returns, and
returns normally (process exit 0) otherwise.  A runtime panic
bypasses the action; the Go runtime then terminates the process with
status 2. -/
def convertCommandExitCode (r : ConvRes) : Nat :=
  match r with
  | .done => exitNoError
  | .err _ => exitTransformError
  | .panicked _ => 2

/-- C8 counterexample: a decode failure during the convert command
exits with the transform-error code 4, not with the input-error code
1 the claim names. -/
theorem c8_counterexample :
    convertCommandExitCode
        (convertStream (.error "syntax error") none (fun _ => .ok ()))
      ≠ exitInputError := by
  decide

/-- C8 (amended): the exit-code severities are 0, 1, 2, 4 and 32 and
occupy pairwise-disjoint bits, so they combine bitwise (the argument
parser failure path exits with all four error bits, 39); the convert
command, however, maps every failure of its conversion — decode,
transform and encode failures alike — to the single transform-error
code 4, and exits 0 when no error occurred. -/
theorem c8_exit_codes :
    (exitNoError = 0 ∧ exitInputError = 1 ∧ exitOutputError = 2 ∧
      exitTransformError = 4 ∧ exitConfigurationError = 32)
  ∧ (Nat.land exitInputError exitOutputError = 0
      ∧ Nat.land exitInputError exitTransformError = 0
      ∧ Nat.land exitInputError exitConfigurationError = 0
      ∧ Nat.land exitOutputError exitTransformError = 0
      ∧ Nat.land exitOutputError exitConfigurationError = 0
      ∧ Nat.land exitTransformError exitConfigurationError = 0)
  ∧ exitInputError + exitOutputError + exitTransformError
      + exitConfigurationError = 39
  ∧ (∀ (e : String) (tr : Option Transformer) (ms : GoVal → Except String Unit),
      convertCommandExitCode (convertStream (.error e) tr ms)
        = exitTransformError)
  ∧ (∀ (v : GoVal) (e : String),
      convertCommandExitCode (convertStream (.ok v) none (fun _ => .error e))
        = exitTransformError)
  ∧ (∀ v : GoVal,
      convertCommandExitCode (convertStream (.ok v) none (fun _ => .ok ()))
        = exitNoError) := by
  refine ⟨⟨rfl, rfl, rfl, rfl, rfl⟩, ⟨by decide, by decide, by decide,
    by decide, by decide, by decide⟩, by decide, ?_, fun v e => rfl, fun v => rfl⟩
  intro e tr ms
  cases tr <;> rfl

/-! ## Claim C3: the number string parser -/

theorem range_ok_of_pos (r : ℚ) (h0 : 0 < r) (h1 : r ≤ maxFloat64Q)
    (h2 : 1 / 2 ^ 1075 ≤ r) :
    ¬(maxFloat64Q < abs r) ∧ ¬(r ≠ 0 ∧ abs r < 1 / 2 ^ 1075) := by
  rw [abs_of_pos h0]
  exact ⟨not_lt.mpr h1, fun hc => absurd hc.2 (not_lt.mpr h2)⟩

theorem parseGoFloat_finite_eval (s : String) (m : Bool × Nat × Nat × Int) (r : ℚ)
    (hs : parseFloatSpecial s.data = none)
    (hd : parseFloatDec s.data = some m)
    (hv : decValue m = r)
    (h1 : ¬(maxFloat64Q < abs r))
    (h2 : ¬(r ≠ 0 ∧ abs r < 1 / 2 ^ 1075)) :
    parseGoFloat s = some (.finite r) := by
  unfold parseGoFloat
  rw [hs]
  simp only []
  rw [hd]
  simp only [hv]
  rw [if_neg h1, if_neg h2]

theorem customParser_float_eval (s : String) (f : GoFloat)
    (hne : ¬(s = ""))
    (hi : parseGoInt s 64 = none)
    (hf : parseGoFloat s = some f)
    (hfin : (f.isInf || f.isNaN) = false) :
    CustomStringNumberParser s 64 64 true = .floatv f := by
  unfold CustomStringNumberParser
  rw [if_neg hne, hi]
  simp only []
  rw [hf]
  simp only []
  simp [hfin]

theorem customParser_nonfinite_eval (s : String) (f : GoFloat)
    (hne : ¬(s = ""))
    (hi : parseGoInt s 64 = none)
    (hf : parseGoFloat s = some f)
    (hfin : (f.isInf || f.isNaN) = true) :
    CustomStringNumberParser s 64 64 true = .strv s := by
  unfold CustomStringNumberParser
  rw [if_neg hne, hi]
  simp only []
  rw [hf]
  simp only []
  simp [hfin]

/-- C3: the number-string parser is total by construction (it returns
a value for every string and flag, never an error).  The empty string
passes through without any parse attempt; otherwise a successful
base-10 signed 64-bit integer parse wins; otherwise a successful float
parse yields the float, except that finite-only mode turns an infinite
or NaN parse back into the original string; and when both parses fail
the original string comes back unchanged.  In particular "123" gives
integer 123, "2.5" float 5/2, "1E-05" float 1/100000, and "NaN",
"Infinity" and "-Inf" stay strings in finite-only mode. -/
theorem c3_number_parser_policy :
    (∀ (s : String) (fo : Bool),
        (s = "" → CustomStringNumberParser s 64 64 fo = .strv s)
      ∧ (∀ i, ¬(s = "") → parseGoInt s 64 = some i →
          CustomStringNumberParser s 64 64 fo = .intv i)
      ∧ (∀ f, ¬(s = "") → parseGoInt s 64 = none → parseGoFloat s = some f →
            (fo = false → CustomStringNumberParser s 64 64 fo = .floatv f)
          ∧ (fo = true → (f.isInf || f.isNaN) = false →
              CustomStringNumberParser s 64 64 fo = .floatv f)
          ∧ (fo = true → (f.isInf || f.isNaN) = true →
              CustomStringNumberParser s 64 64 fo = .strv s))
      ∧ (¬(s = "") → parseGoInt s 64 = none → parseGoFloat s = none →
          CustomStringNumberParser s 64 64 fo = .strv s))
  ∧ (CustomStringNumberParser "" 64 64 true = .strv ""
     ∧ CustomStringNumberParser "123" 64 64 true = .intv 123
     ∧ CustomStringNumberParser "2.5" 64 64 true = .floatv (.finite (5 / 2))
     ∧ CustomStringNumberParser "1E-05" 64 64 true = .floatv (.finite (1 / 100000))
     ∧ CustomStringNumberParser "NaN" 64 64 true = .strv "NaN"
     ∧ CustomStringNumberParser "Infinity" 64 64 true = .strv "Infinity"
     ∧ CustomStringNumberParser "-Inf" 64 64 true = .strv "-Inf"
     ∧ CustomStringNumberParser "NaN" 64 64 false = .floatv .nan) := by
  constructor
  · intro s fo
    refine ⟨?_, ?_, ?_, ?_⟩
    · intro hs
      unfold CustomStringNumberParser
      rw [if_pos hs]
    · intro i hne hi
      unfold CustomStringNumberParser
      rw [if_neg hne, hi]
    · intro f hne hi hf
      refine ⟨?_, ?_, ?_⟩
      · intro hfo
        subst hfo
        unfold CustomStringNumberParser
        rw [if_neg hne, hi]
        simp only []
        rw [hf]
        simp
      · intro hfo hfin
        subst hfo
        exact customParser_float_eval s f hne hi hf hfin
      · intro hfo hfin
        subst hfo
        exact customParser_nonfinite_eval s f hne hi hf hfin
    · intro hne hi hf
      unfold CustomStringNumberParser
      rw [if_neg hne, hi]
      simp only []
      rw [hf]
  · have h25 : CustomStringNumberParser "2.5" 64 64 true
        = .floatv (.finite (5 / 2)) := by
      refine customParser_float_eval "2.5" (.finite (5 / 2)) (by decide) rfl ?_ rfl
      refine parseGoFloat_finite_eval "2.5" (false, 25, 1, 0) (5 / 2) rfl rfl
        (by norm_num [decValue]) ?_ ?_
      · exact (range_ok_of_pos (5 / 2) (by norm_num)
          (by norm_num [maxFloat64Q]) (by norm_num)).1
      · exact (range_ok_of_pos (5 / 2) (by norm_num)
          (by norm_num [maxFloat64Q]) (by norm_num)).2
    have h105 : CustomStringNumberParser "1E-05" 64 64 true
        = .floatv (.finite (1 / 100000)) := by
      refine customParser_float_eval "1E-05" (.finite (1 / 100000)) (by decide) rfl ?_ rfl
      refine parseGoFloat_finite_eval "1E-05" (false, 1, 0, -5) (1 / 100000) rfl rfl
        (by norm_num [decValue]) ?_ ?_
      · exact (range_ok_of_pos (1 / 100000) (by norm_num)
          (by norm_num [maxFloat64Q]) (by norm_num)).1
      · exact (range_ok_of_pos (1 / 100000) (by norm_num)
          (by norm_num [maxFloat64Q]) (by norm_num)).2
    have hnan : CustomStringNumberParser "NaN" 64 64 true = .strv "NaN" :=
      customParser_nonfinite_eval "NaN" .nan (by decide) rfl rfl rfl
    have hinfinity : CustomStringNumberParser "Infinity" 64 64 true
        = .strv "Infinity" :=
      customParser_nonfinite_eval "Infinity" (.inf false) (by decide) rfl rfl rfl
    have hninf : CustomStringNumberParser "-Inf" 64 64 true = .strv "-Inf" :=
      customParser_nonfinite_eval "-Inf" (.inf true) (by decide) rfl rfl rfl
    exact ⟨rfl, rfl, h25, h105, hnan, hinfinity, hninf, rfl⟩

end Dfmt
